import Mathlib

/-
Shallow embedding of litl/park (park.py), an ordered key-value store backed
by a single SQLite table

    CREATE TABLE kv (key BLOB NOT NULL PRIMARY KEY, value BLOB NOT NULL)

Keys and values are opaque byte sequences, modelled as `List Nat`.  SQLite
compares BLOBs with memcmp semantics (pairwise unsigned byte comparison,
shorter-is-smaller on a common-prefix tie); `bytesLt` / `bytesLe` embed that
order.  The table, together with its primary-key index, is embedded as an
association list kept in ascending key order (the index order); each SQL
statement executed by park.py becomes a pure function on that list.
-/

namespace Park

/-- Byte strings (Python `bytes`): lists of byte values. -/
abbrev Bytes := List Nat

/-- The `kv` table contents, in primary-key (byte-lexical) index order. -/
abbrev DB := List (Bytes × Bytes)

/-- SQLite BLOB comparison, strict: memcmp of the common prefix, then the
shorter operand sorts first. -/
def bytesLt : Bytes → Bytes → Bool
  | _, [] => false
  | [], _ :: _ => true
  | a :: as, b :: bs => if a < b then true else if b < a then false else bytesLt as bs

/-- SQLite BLOB comparison, non-strict. -/
def bytesLe : Bytes → Bytes → Bool
  | [], _ => true
  | _ :: _, [] => false
  | a :: as, b :: bs => if a < b then true else if b < a then false else bytesLe as bs

/-- The primary-key index invariant: rows stored in strictly ascending
byte-lexical key order (hence at most one row per key). -/
abbrev Sorted (db : DB) : Prop :=
  db.Pairwise (fun e f => bytesLt e.1 f.1 = true)

namespace SqliteStore

/-- Embedding of `SqliteStore.get`: `SELECT value FROM kv WHERE key = ?`
with `fetchone`; `fetchone` returns `None` (here `Option.none`) when no row
matches, and otherwise a 1-tuple holding the value — a tuple is truthy even
when the value is the empty byte string, so `if not row` tests row
presence, not value truthiness. -/
def get (db : DB) (key : Bytes) (default : Option Bytes) : Option Bytes :=
  match db.find? (fun e => e.1 == key) with
  | some row => some row.2
  | none => default

/-- Embedding of `SqliteStore.put`: `INSERT OR REPLACE INTO kv` followed by
`commit`.  On the index-ordered list this replaces the row with an equal
key, or inserts the new row at its index position. -/
def put (db : DB) (key value : Bytes) : DB :=
  match db with
  | [] => [(key, value)]
  | e :: rest =>
    if bytesLt key e.1 then (key, value) :: e :: rest
    else if key == e.1 then (key, value) :: rest
    else e :: put rest key value

/-- Embedding of `SqliteStore.delete`: `DELETE FROM kv WHERE key = ?`
followed by `commit`; removes every row whose key equals `key` (at most one
under the primary-key invariant), and is a no-op when none matches. -/
def delete (db : DB) (key : Bytes) : DB :=
  db.filter (fun e => !(e.1 == key))

end SqliteStore

/-- Embedding of `park.ibatch`: splits a sequence into consecutive batches
of `size` elements, the last possibly shorter; an empty input (or a zero
size, where `next` on an empty slice raises `StopIteration` at once) yields
no batch. -/
def ibatch (l : List α) (size : Nat) : List (List α) :=
  match size, l with
  | 0, _ => []
  | _ + 1, [] => []
  | n + 1, x :: xs => (x :: xs).take (n + 1) :: ibatch ((x :: xs).drop (n + 1)) (n + 1)
termination_by l.length
decreasing_by simp; omega

namespace SqliteStore

/-- One `executemany` batch of `INSERT OR REPLACE` rows: the row upserts
applied in sequence order inside a single transaction. -/
def exec_batch (db : DB) (batch : List (Bytes × Bytes)) : DB :=
  batch.foldl (fun d kv => put d kv.1 kv.2) db

/-- Embedding of `SqliteStore.put_many`: chunk the items with
`ibatch(items, 30000)` and run each chunk as one `executemany` upsert,
committing after each chunk. -/
def put_many (db : DB) (items : List (Bytes × Bytes)) : DB :=
  (ibatch items 30000).foldl exec_batch db

/-- One `executemany` batch of `DELETE` statements. -/
def exec_delete_batch (db : DB) (batch : List Bytes) : DB :=
  batch.foldl (fun d k => delete d k) db

/-- Embedding of `SqliteStore.delete_many`: chunked like `put_many`. -/
def delete_many (db : DB) (keys : List Bytes) : DB :=
  (ibatch keys 30000).foldl exec_delete_batch db

/-- The committed states of a chunked batch call: one committed snapshot
per executed chunk (`conn.commit()` runs once after each `executemany`). -/
def commit_trace (db : DB) : List (List (Bytes × Bytes)) → List DB
  | [] => []
  | b :: bs => exec_batch db b :: commit_trace (exec_batch db b) bs

/-- The sequence of states committed by `put_many db items`, in order. -/
def put_many_commits (db : DB) (items : List (Bytes × Bytes)) : List DB :=
  commit_trace db (ibatch items 30000)

/-- Embedding of `SqliteStore._range_where`: the four WHERE-clause shapes. -/
inductive RangeWhere
  | noBound
  | geFrom (key_from : Bytes)
  | leTo (key_to : Bytes)
  | between (key_from key_to : Bytes)

/-- Clause selection of `_range_where`: lower bound only gives
`key >= :key_from`, upper bound only gives `key <= :key_to`, both give
`key BETWEEN :key_from AND :key_to`, neither gives no WHERE clause. -/
def range_where : Option Bytes → Option Bytes → RangeWhere
  | some kf, none => .geFrom kf
  | none, some kt => .leTo kt
  | some kf, some kt => .between kf kt
  | none, none => .noBound

/-- SQLite evaluation of the WHERE clause on a row's key (`BETWEEN` is
inclusive at both ends). -/
def RangeWhere.holds : RangeWhere → Bytes → Bool
  | .noBound, _ => true
  | .geFrom kf, k => bytesLe kf k
  | .leTo kt, k => bytesLe k kt
  | .between kf kt, k => bytesLe kf k && bytesLe k kt

/-- Embedding of `SqliteStore.items`:
`SELECT key, value FROM kv <where> ORDER BY key`.  On the index-ordered
list the ordered scan is the filtered list itself. -/
def items (db : DB) (key_from key_to : Option Bytes) : List (Bytes × Bytes) :=
  db.filter (fun e => (range_where key_from key_to).holds e.1)

/-- Embedding of `SqliteStore.keys`:
`SELECT key FROM kv <where> ORDER BY key`. -/
def keys (db : DB) (key_from key_to : Option Bytes) : List Bytes :=
  (db.filter (fun e => (range_where key_from key_to).holds e.1)).map (fun e => e.1)

/-- Embedding of `SqliteStore.__init__` for the claims' purposes: opening a
path where no file exists creates the file and bootstraps the empty `kv`
table; opening an existing file keeps its contents (`need_schema` is false,
so `_create_db` does not run). -/
def open_store : Option DB → DB
  | none => []
  | some db => db

/-- Embedding of `SqliteStore.close`: commit and release the connection;
since every mutation commits before returning, the file afterwards holds
exactly the table contents the handle saw. -/
def close : DB → Option DB := fun db => some db

end SqliteStore

namespace KVStore

/-- Embedding of `KVStore.contains`, the derived default implementation:
`self.get(key, default=None) is not None`.  A stored value is a byte
string, never `None`, so presence alone decides the result. -/
def contains (db : DB) (key : Bytes) : Bool :=
  (SqliteStore.get db key none).isSome

/-- Embedding of `KVStore.prefix_items`, the derived implementation: scan
`items(key_from=pfx)` in order, stop at the first key that does not start
with `pfx`, and yield `key[start:]` where `start` is `len(pfx)` when
stripping and `0` otherwise. -/
def prefix_items (db : DB) (pfx : Bytes) (strip : Bool) : List (Bytes × Bytes) :=
  let its := SqliteStore.items db (some pfx) none
  let start := if strip then pfx.length else 0
  (its.takeWhile (fun e => List.isPrefixOf pfx e.1)).map (fun e => (e.1.drop start, e.2))

/-- Embedding of `KVStore.prefix_keys`, the derived implementation over
`keys(key_from=pfx)`. -/
def prefix_keys (db : DB) (pfx : Bytes) (strip : Bool) : List Bytes :=
  let ks := SqliteStore.keys db (some pfx) none
  let start := if strip then pfx.length else 0
  (ks.takeWhile (fun k => List.isPrefixOf pfx k)).map (fun k => k.drop start)

end KVStore

/-- States reachable from a fresh (empty) store through the mutating
operations. -/
inductive Reachable : DB → Prop
  | empty : Reachable []
  | put {db : DB} (k v : Bytes) : Reachable db → Reachable (SqliteStore.put db k v)
  | put_many {db : DB} (items : List (Bytes × Bytes)) : Reachable db →
      Reachable (SqliteStore.put_many db items)
  | delete {db : DB} (k : Bytes) : Reachable db → Reachable (SqliteStore.delete db k)
  | delete_many {db : DB} (ks : List Bytes) : Reachable db →
      Reachable (SqliteStore.delete_many db ks)

/-- Modelled from the spec's words (for comparison with the code's
`_range_where`): a key `k` is in range when `lo ≤ k ≤ hi`, a `None` bound
meaning unbounded on that side. -/
def in_bounds_spec (lo hi : Option Bytes) (k : Bytes) : Bool :=
  (match lo with
   | none => true
   | some a => bytesLe a k) &&
  (match hi with
   | none => true
   | some b => bytesLe k b)

/-! ### Order lemmas for the byte-lexical comparison -/

theorem bytesLt_irrefl (a : Bytes) : bytesLt a a = false := by
  induction a with
  | nil => rfl
  | cons x xs ih => simp [bytesLt, ih]

theorem bytesLt_trans : ∀ {a b c : Bytes},
    bytesLt a b = true → bytesLt b c = true → bytesLt a c = true := by
  intro a
  induction a with
  | nil =>
    intro b c h1 h2
    cases c with
    | nil => cases b <;> simp [bytesLt] at h2
    | cons z zs => simp [bytesLt]
  | cons x xs ih =>
    intro b c h1 h2
    cases b with
    | nil => simp [bytesLt] at h1
    | cons y ys =>
      cases c with
      | nil => simp [bytesLt] at h2
      | cons z zs =>
        simp only [bytesLt] at h1 h2 ⊢
        by_cases hxy : x < y
        · by_cases hyz : y < z
          · simp [show x < z by omega]
          · by_cases hzy : z < y
            · simp [hyz, hzy] at h2
            · have hyz' : y = z := by omega
              subst hyz'
              simp [hxy]
        · by_cases hyx : y < x
          · simp [hxy, hyx] at h1
          · have hxy' : x = y := by omega
            subst hxy'
            simp [hxy] at h1
            by_cases hyz : x < z
            · simp [hyz]
            · by_cases hzy : z < x
              · simp [hyz, hzy] at h2
              · have hyz' : x = z := by omega
                subst hyz'
                simp [hyz] at h2
                simp [hyz, ih h1 h2]

theorem bytesLt_total (a b : Bytes) :
    bytesLt a b = true ∨ a = b ∨ bytesLt b a = true := by
  induction a generalizing b with
  | nil =>
    cases b with
    | nil => simp
    | cons y ys => simp [bytesLt]
  | cons x xs ih =>
    cases b with
    | nil => simp [bytesLt]
    | cons y ys =>
      rcases Nat.lt_trichotomy x y with h | h | h
      · left; simp [bytesLt, h]
      · subst h
        rcases ih ys with h' | h' | h'
        · left; simp [bytesLt, h']
        · subst h'; right; left; rfl
        · right; right; simp [bytesLt, h']
      · right; right; simp [bytesLt, h]

theorem bytesLt_ne {a b : Bytes} (h : bytesLt a b = true) : a ≠ b := by
  intro hab
  subst hab
  simp [bytesLt_irrefl] at h

theorem bytesLe_of_lt : ∀ {a b : Bytes}, bytesLt a b = true → bytesLe a b = true := by
  intro a
  induction a with
  | nil => intro b _; simp [bytesLe]
  | cons x xs ih =>
    intro b h
    cases b with
    | nil => simp [bytesLt] at h
    | cons y ys =>
      simp only [bytesLt] at h
      simp only [bytesLe]
      split at h
      · simp_all
      · split at h
        · exact absurd h (by simp)
        · simp_all

theorem bytesLe_refl (a : Bytes) : bytesLe a a = true := by
  induction a with
  | nil => rfl
  | cons x xs ih => simp [bytesLe, ih]

theorem bytesLe_iff {a b : Bytes} :
    bytesLe a b = true ↔ (bytesLt a b = true ∨ a = b) := by
  constructor
  · intro h
    induction a generalizing b with
    | nil =>
      cases b with
      | nil => right; rfl
      | cons y ys => left; simp [bytesLt]
    | cons x xs ih =>
      cases b with
      | nil => simp [bytesLe] at h
      | cons y ys =>
        simp only [bytesLe] at h
        split at h
        · left; simp only [bytesLt]; simp_all
        · split at h
          · exact absurd h (by simp)
          · have hxy : x = y := by omega
            subst hxy
            rcases ih h with h' | h'
            · left; simp [bytesLt, h']
            · subst h'; right; rfl
  · rintro (h | rfl)
    · exact bytesLe_of_lt h
    · exact bytesLe_refl a

/-! ### Core store lemmas -/

theorem mem_put {db : DB} {k v : Bytes} {e : Bytes × Bytes}
    (h : e ∈ SqliteStore.put db k v) : e = (k, v) ∨ e ∈ db := by
  induction db with
  | nil => simpa [SqliteStore.put] using h
  | cons f rest ih =>
    simp only [SqliteStore.put] at h
    split at h
    · rcases List.mem_cons.mp h with h | h
      · exact Or.inl h
      · exact Or.inr h
    · split at h
      · rcases List.mem_cons.mp h with h | h
        · exact Or.inl h
        · exact Or.inr (List.mem_cons_of_mem f h)
      · rcases List.mem_cons.mp h with h | h
        · exact Or.inr (h ▸ List.mem_cons_self f rest)
        · rcases ih h with h' | h'
          · exact Or.inl h'
          · exact Or.inr (List.mem_cons_of_mem f h')

theorem put_sorted {db : DB} (hs : Sorted db) (k v : Bytes) :
    Sorted (SqliteStore.put db k v) := by
  induction db with
  | nil => simp [SqliteStore.put, Sorted]
  | cons f rest ih =>
    rcases List.pairwise_cons.mp hs with ⟨hf, hrest⟩
    simp only [SqliteStore.put]
    split
    · rename_i hlt
      refine List.pairwise_cons.mpr ⟨?_, hs⟩
      intro e he
      rcases List.mem_cons.mp he with rfl | he
      · exact hlt
      · exact bytesLt_trans hlt (hf e he)
    · split
      · rename_i hnlt heq
        have hk : k = f.1 := by simpa using heq
        refine List.pairwise_cons.mpr ⟨?_, hrest⟩
        intro e he
        simpa [hk] using hf e he
      · rename_i hnlt hne
        have hlt : bytesLt f.1 k = true := by
          rcases bytesLt_total k f.1 with h | h | h
          · exact absurd h (by simpa using hnlt)
          · exact absurd (by simpa using h) (by simpa using hne)
          · exact h
        refine List.pairwise_cons.mpr ⟨?_, ih hrest⟩
        intro e he
        rcases mem_put he with rfl | he
        · exact hlt
        · exact hf e he

theorem get_put_self (db : DB) (k v : Bytes) (d : Option Bytes) :
    SqliteStore.get (SqliteStore.put db k v) k d = some v := by
  induction db with
  | nil => simp [SqliteStore.put, SqliteStore.get, List.find?]
  | cons f rest ih =>
    simp only [SqliteStore.put]
    split
    · simp [SqliteStore.get, List.find?]
    · split
      · simp [SqliteStore.get, List.find?]
      · rename_i hnlt hne
        have hfk : (f.1 == k) = false := by
          simp only [beq_eq_false_iff_ne]
          intro he
          exact absurd (by simpa using he.symm) (by simpa using hne)
        simp only [SqliteStore.get] at ih ⊢
        rw [List.find?_cons_of_neg _ (by simp [hfk])]
        exact ih

theorem countP_eq_zero_of_forall_gt {db : DB} {k : Bytes}
    (h : ∀ e ∈ db, bytesLt k e.1 = true) :
    db.countP (fun e => e.1 == k) = 0 := by
  induction db with
  | nil => rfl
  | cons f rest ih =>
    have hf : (f.1 == k) = false := by
      simp only [beq_eq_false_iff_ne]
      intro he
      exact bytesLt_ne (h f (List.mem_cons_self f rest)) he.symm
    simp [List.countP_cons, hf, ih (fun e he => h e (List.mem_cons_of_mem f he))]

theorem countP_put {db : DB} (hs : Sorted db) (k v : Bytes) :
    (SqliteStore.put db k v).countP (fun e => e.1 == k) = 1 := by
  induction db with
  | nil => simp [SqliteStore.put, List.countP_cons]
  | cons f rest ih =>
    rcases List.pairwise_cons.mp hs with ⟨hf, hrest⟩
    simp only [SqliteStore.put]
    split
    · rename_i hlt
      have h0 : (f :: rest).countP (fun e => e.1 == k) = 0 := by
        refine countP_eq_zero_of_forall_gt ?_
        intro e he
        rcases List.mem_cons.mp he with rfl | he
        · exact hlt
        · exact bytesLt_trans hlt (hf e he)
      simp [List.countP_cons, h0]
    · split
      · rename_i hnlt heq
        have hk : k = f.1 := by simpa using heq
        have h0 : rest.countP (fun e => e.1 == k) = 0 := by
          refine countP_eq_zero_of_forall_gt ?_
          intro e he
          exact hk ▸ hf e he
        simp [List.countP_cons, h0]
      · rename_i hnlt hne
        have hfk : (f.1 == k) = false := by
          simp only [beq_eq_false_iff_ne]
          intro he
          exact absurd (by simpa using he.symm) (by simpa using hne)
        simp [List.countP_cons, hfk, ih hrest]

theorem find?_of_mem_sorted {db : DB} {k v : Bytes} (hs : Sorted db)
    (hm : (k, v) ∈ db) : db.find? (fun e => e.1 == k) = some (k, v) := by
  induction db with
  | nil => cases hm
  | cons f rest ih =>
    rcases List.pairwise_cons.mp hs with ⟨hf, hrest⟩
    rcases List.mem_cons.mp hm with rfl | hm'
    · exact List.find?_cons_of_pos _ (by simp)
    · by_cases hfk : f.1 = k
      · have hlt := hf _ hm'
        rw [hfk] at hlt
        simp [bytesLt_irrefl] at hlt
      · rw [List.find?_cons_of_neg _ (by simp [hfk])]
        exact ih hrest hm'

theorem get_delete (db : DB) (k : Bytes) (d : Option Bytes) :
    SqliteStore.get (SqliteStore.delete db k) k d = d := by
  have h : (SqliteStore.delete db k).find? (fun e => e.1 == k) = none := by
    rw [List.find?_eq_none]
    intro e he
    have he2 := (List.mem_filter.mp he).2
    simp only [Bool.not_eq_eq_eq_not, Bool.not_true] at he2 ⊢
    simp at he2 ⊢
    exact he2
  simp [SqliteStore.get, h]

theorem delete_of_not_mem {db : DB} {k : Bytes}
    (h : k ∉ db.map (fun e => e.1)) : SqliteStore.delete db k = db := by
  rw [SqliteStore.delete, List.filter_eq_self]
  intro e he
  simp only [Bool.not_eq_eq_eq_not, Bool.not_true, beq_eq_false_iff_ne]
  intro hek
  exact h (List.mem_map.mpr ⟨e, he, hek⟩)

/-! ### Chunking lemmas -/

theorem foldl_batches {α β : Type} (f : β → α → β) (chunks : List (List α)) (init : β) :
    chunks.foldl (fun d b => b.foldl f d) init = chunks.flatten.foldl f init := by
  induction chunks generalizing init with
  | nil => rfl
  | cons c cs ih => simp [List.foldl_append, ih]

theorem ibatch_flatten (n : Nat) : ∀ (l : List α), (ibatch l (n + 1)).flatten = l
  | [] => by simp [ibatch]
  | x :: xs => by
    simp only [ibatch]
    rw [List.flatten_cons]
    rw [ibatch_flatten n ((x :: xs).drop (n + 1))]
    exact List.take_append_drop (n + 1) (x :: xs)
termination_by l => l.length
decreasing_by simp; omega

theorem put_many_eq_foldl (db : DB) (items : List (Bytes × Bytes)) :
    SqliteStore.put_many db items =
      items.foldl (fun d kv => SqliteStore.put d kv.1 kv.2) db := by
  unfold SqliteStore.put_many SqliteStore.exec_batch
  rw [foldl_batches]
  rw [ibatch_flatten 29999 items]

theorem delete_many_eq_foldl (db : DB) (ks : List Bytes) :
    SqliteStore.delete_many db ks =
      ks.foldl (fun d k => SqliteStore.delete d k) db := by
  unfold SqliteStore.delete_many SqliteStore.exec_delete_batch
  rw [foldl_batches]
  rw [ibatch_flatten 29999 ks]

theorem foldl_delete_absent :
    ∀ (ks : List Bytes) (db : DB), (∀ k' ∈ ks, k' ∉ db.map (fun e => e.1)) →
      ks.foldl (fun d k => SqliteStore.delete d k) db = db := by
  intro ks
  induction ks with
  | nil => intro db _; rfl
  | cons a as ih =>
    intro db h
    simp only [List.foldl_cons]
    rw [delete_of_not_mem (h a (by simp))]
    exact ih db (fun k' hk' => h k' (by simp [hk']))

/-! ### Claim theorems -/

/-- Claim C3: put is an upsert with immediate visibility — after
`put(k, v1); put(k, v2)` a `get(k)` from the same handle returns `v2` and
the table holds exactly one row for `k`; every `put` commits before
returning, so no caller-side commit separates `put` from `get`. -/
theorem put_upsert (db : DB) (hs : Sorted db) (k v1 v2 : Bytes) (d : Option Bytes) :
    SqliteStore.get (SqliteStore.put (SqliteStore.put db k v1) k v2) k d = some v2 ∧
    (SqliteStore.put (SqliteStore.put db k v1) k v2).countP (fun e => e.1 == k) = 1 :=
  ⟨get_put_self _ _ _ _, countP_put (put_sorted hs k v1) k v2⟩

/-- Witness for C3 at a concrete store. -/
theorem put_upsert_witness :
    SqliteStore.get (SqliteStore.put (SqliteStore.put [] [1] [7]) [1] [8]) [1] none = some [8] ∧
    (SqliteStore.put (SqliteStore.put [] [1] [7]) [1] [8]).countP (fun e => e.1 == [1]) = 1 :=
  put_upsert [] List.Pairwise.nil [1] [7] [8] none

/-- Claim C4: the end state of `put_many(items)` equals the end state of
issuing `put` for each pair in sequence order, for every input including
ones past the 30,000-pair chunk boundary; duplicate keys within the
sequence resolve last-write-wins. -/
theorem put_many_batch_equivalence (db : DB) (items : List (Bytes × Bytes)) :
    SqliteStore.put_many db items =
      items.foldl (fun d kv => SqliteStore.put d kv.1 kv.2) db ∧
    ∀ (pre : List (Bytes × Bytes)) (k v1 v2 : Bytes),
      SqliteStore.get (SqliteStore.put_many db (pre ++ [(k, v1), (k, v2)])) k none
        = some v2 := by
  refine ⟨put_many_eq_foldl db items, ?_⟩
  intro pre k v1 v2
  rw [put_many_eq_foldl, List.foldl_append]
  exact get_put_self _ _ _ _

/-- Claim C5: delete of an absent key does not fail and leaves the state
unchanged; for every store, key and value, delete after put makes
`get(k, default)` return `default` (including when the key was already
present and the put overwrote it); and `delete_many` over absent keys is
likewise a no-op. -/
theorem delete_absent_noop (db : DB) (k : Bytes) (ks : List Bytes)
    (habs : k ∉ db.map (fun e => e.1))
    (habs2 : ∀ k' ∈ ks, k' ∉ db.map (fun e => e.1)) :
    SqliteStore.delete db k = db ∧
    (∀ (db' : DB) (k' v : Bytes) (d : Option Bytes),
      SqliteStore.get (SqliteStore.delete (SqliteStore.put db' k' v) k') k' d = d) ∧
    SqliteStore.delete_many db ks = db := by
  refine ⟨delete_of_not_mem habs, fun db' k' v d => get_delete _ _ _, ?_⟩
  rw [delete_many_eq_foldl]
  exact foldl_delete_absent ks db habs2

/-- Witness for C5 at a concrete store; the middle conjunct is
instantiated at a key already present before the put. -/
theorem delete_absent_noop_witness :
    SqliteStore.delete [([1], [2])] [0] = [([1], [2])] ∧
    SqliteStore.get (SqliteStore.delete (SqliteStore.put [([1], [2])] [1] [5]) [1]) [1] none
      = none ∧
    SqliteStore.delete_many [([1], [2])] [[0], [3]] = [([1], [2])] :=
  ⟨(delete_absent_noop [([1], [2])] [0] [[0], [3]] (by simp) (by simp)).1,
   (delete_absent_noop [([1], [2])] [0] [[0], [3]] (by simp) (by simp)).2.1
     [([1], [2])] [1] [5] none,
   (delete_absent_noop [([1], [2])] [0] [[0], [3]] (by simp) (by simp)).2.2⟩

/-- Claim C8: the derived `contains` returns true exactly when the store
holds a row for the key; the `get`-with-`None`-sentinel implementation is
correct for every stored value, since stored values are byte strings and
never `None`. -/
theorem contains_iff_mem (db : DB) (k : Bytes) :
    KVStore.contains db k = true ↔ k ∈ db.map (fun e => e.1) := by
  unfold KVStore.contains SqliteStore.get
  rcases hf : db.find? (fun e => e.1 == k) with _ | row
  · simp only [hf]
    constructor
    · intro h; simp at h
    · intro h
      rcases List.mem_map.mp h with ⟨e, he, rfl⟩
      have := List.find?_eq_none.mp hf e he
      simp at this
  · simp only [hf]
    constructor
    · intro _
      have hmem := List.mem_of_find?_eq_some hf
      have hp := List.find?_some hf
      simp only [beq_iff_eq] at hp
      exact List.mem_map.mpr ⟨row, hmem, hp⟩
    · intro _; rfl

/-- Claim C10: an empty stored value is distinguished from absence —
`get` tests whether a row was found (`fetchone` returning `None`), not
whether the value is falsy, so it returns the empty byte string rather
than the default, and `contains` returns true. -/
theorem get_empty_value (db : DB) (k : Bytes) (hs : Sorted db)
    (hm : (k, ([] : Bytes)) ∈ db) :
    SqliteStore.get db k none = some [] ∧
    SqliteStore.get db k none ≠ none ∧
    KVStore.contains db k = true := by
  have hf := find?_of_mem_sorted hs hm
  refine ⟨?_, ?_, ?_⟩ <;> simp [SqliteStore.get, KVStore.contains, hf]

/-- Witness for C10 at a concrete store holding an empty value. -/
theorem get_empty_value_witness :
    SqliteStore.get [([0], [])] [0] none = some [] ∧
    SqliteStore.get [([0], [])] [0] none ≠ none ∧
    KVStore.contains [([0], [])] [0] = true :=
  get_empty_value [([0], [])] [0] (by simp [Sorted]) (by simp)

/-! ### Range query lemmas -/

theorem holds_eq_spec (lo hi : Option Bytes) (k : Bytes) :
    (SqliteStore.range_where lo hi).holds k = in_bounds_spec lo hi k := by
  cases lo <;> cases hi <;>
    simp [SqliteStore.range_where, SqliteStore.RangeWhere.holds, in_bounds_spec]

theorem mem_keys (db : DB) (lo hi : Option Bytes) (k : Bytes) :
    k ∈ SqliteStore.keys db lo hi ↔
      (k ∈ db.map (fun e => e.1) ∧ in_bounds_spec lo hi k = true) := by
  unfold SqliteStore.keys
  constructor
  · intro h
    rcases List.mem_map.mp h with ⟨e, he, rfl⟩
    rcases List.mem_filter.mp he with ⟨he', hp⟩
    rw [holds_eq_spec] at hp
    exact ⟨List.mem_map.mpr ⟨e, he', rfl⟩, hp⟩
  · rintro ⟨hm, hb⟩
    rcases List.mem_map.mp hm with ⟨e, he, rfl⟩
    refine List.mem_map.mpr ⟨e, List.mem_filter.mpr ⟨he, ?_⟩, rfl⟩
    rw [holds_eq_spec]
    exact hb

theorem keys_pairwise {db : DB} (hs : Sorted db) (lo hi : Option Bytes) :
    (SqliteStore.keys db lo hi).Pairwise (fun a b => bytesLt a b = true) := by
  unfold SqliteStore.keys
  exact List.Pairwise.map _ (fun a b h => h) (List.Pairwise.filter _ hs)

/-! ### Prefix contiguity lemmas -/

theorem isPrefixOf_bytesLe : ∀ (p k : Bytes), List.isPrefixOf p k = true → bytesLe p k = true
  | [], _, _ => by simp [bytesLe]
  | x :: xs, [], h => by simp [List.isPrefixOf] at h
  | x :: xs, y :: ys, h => by
    simp only [List.isPrefixOf, Bool.and_eq_true, beq_iff_eq] at h
    rcases h with ⟨rfl, h2⟩
    simp [bytesLe, Nat.lt_irrefl, isPrefixOf_bytesLe xs ys h2]

theorem isPrefixOf_of_between :
    ∀ (p a b : Bytes), bytesLe p a = true → bytesLe a b = true →
      List.isPrefixOf p b = true → List.isPrefixOf p a = true
  | [], _, _, _, _, _ => by simp [List.isPrefixOf]
  | x :: xs, [], b, h1, _, _ => by simp [bytesLe] at h1
  | x :: xs, y :: ys, [], _, _, h3 => by simp [List.isPrefixOf] at h3
  | x :: xs, y :: ys, z :: zs, h1, h2, h3 => by
    simp only [List.isPrefixOf, Bool.and_eq_true, beq_iff_eq] at h3 ⊢
    rcases h3 with ⟨rfl, h3'⟩
    simp only [bytesLe] at h1 h2
    by_cases hxy : x < y
    · by_cases hyx : y < x
      · omega
      · simp [hxy, hyx] at h2
    · by_cases hyx : y < x
      · simp [hxy, hyx] at h1
      · have hxy' : x = y := by omega
        subst hxy'
        simp [Nat.lt_irrefl] at h1 h2
        exact ⟨rfl, isPrefixOf_of_between xs ys zs h1 h2 h3'⟩

theorem takeWhile_eq_filter_keys (p : Bytes) :
    ∀ (l : List Bytes), l.Pairwise (fun a b => bytesLt a b = true) →
      (∀ x ∈ l, bytesLe p x = true) →
      l.takeWhile (fun k => List.isPrefixOf p k) = l.filter (fun k => List.isPrefixOf p k) := by
  intro l
  induction l with
  | nil => intro _ _; rfl
  | cons a as ih =>
    intro hs hge
    rcases List.pairwise_cons.mp hs with ⟨ha, has⟩
    by_cases hpa : List.isPrefixOf p a = true
    · rw [List.takeWhile_cons_of_pos hpa, List.filter_cons_of_pos hpa,
        ih has (fun x hx => hge x (List.mem_cons_of_mem a hx))]
    · have hall : ∀ x ∈ as, ¬ List.isPrefixOf p x = true := by
        intro x hx hpx
        exact hpa (isPrefixOf_of_between p a x (hge a (List.mem_cons_self a as))
          (bytesLe_of_lt (ha x hx)) hpx)
      rw [List.takeWhile_cons_of_neg hpa, List.filter_cons_of_neg hpa]
      exact (List.filter_eq_nil_iff.mpr hall).symm

theorem takeWhile_eq_filter_items (p : Bytes) :
    ∀ (l : List (Bytes × Bytes)), l.Pairwise (fun a b => bytesLt a.1 b.1 = true) →
      (∀ x ∈ l, bytesLe p x.1 = true) →
      l.takeWhile (fun e => List.isPrefixOf p e.1) =
        l.filter (fun e => List.isPrefixOf p e.1) := by
  intro l
  induction l with
  | nil => intro _ _; rfl
  | cons a as ih =>
    intro hs hge
    rcases List.pairwise_cons.mp hs with ⟨ha, has⟩
    by_cases hpa : List.isPrefixOf p a.1 = true
    · rw [@List.takeWhile_cons_of_pos _ (fun e => List.isPrefixOf p e.1) a as hpa,
        @List.filter_cons_of_pos _ (fun e => List.isPrefixOf p e.1) a as hpa,
        ih has (fun x hx => hge x (List.mem_cons_of_mem a hx))]
    · have hall : ∀ x ∈ as, ¬ List.isPrefixOf p x.1 = true := by
        intro x hx hpx
        exact hpa (isPrefixOf_of_between p a.1 x.1 (hge a (List.mem_cons_self a as))
          (bytesLe_of_lt (ha x hx)) hpx)
      rw [@List.takeWhile_cons_of_neg _ (fun e => List.isPrefixOf p e.1) a as hpa,
        @List.filter_cons_of_neg _ (fun e => List.isPrefixOf p e.1) a as hpa]
      exact (List.filter_eq_nil_iff.mpr hall).symm

theorem filter_isPrefixOf_le (db : DB) (p : Bytes) :
    ((db.filter (fun e => bytesLe p e.1)).map (fun e => e.1)).filter
        (fun k => List.isPrefixOf p k)
      = (db.map (fun e => e.1)).filter (fun k => List.isPrefixOf p k) := by
  induction db with
  | nil => rfl
  | cons e rest ih =>
    by_cases hpre : List.isPrefixOf p e.1 = true
    · have hle : bytesLe p e.1 = true := isPrefixOf_bytesLe p e.1 hpre
      rw [@List.filter_cons_of_pos _ (fun e => bytesLe p e.1) e rest hle, List.map_cons,
        List.filter_cons_of_pos hpre, List.map_cons, List.filter_cons_of_pos hpre, ih]
    · by_cases hle : bytesLe p e.1 = true
      · rw [@List.filter_cons_of_pos _ (fun e => bytesLe p e.1) e rest hle, List.map_cons,
          List.filter_cons_of_neg hpre, List.map_cons, List.filter_cons_of_neg hpre, ih]
      · rw [@List.filter_cons_of_neg _ (fun e => bytesLe p e.1) e rest hle, List.map_cons,
          List.filter_cons_of_neg hpre, ih]

theorem filter_filter_isPrefixOf (db : DB) (p : Bytes) :
    (db.filter (fun e => bytesLe p e.1)).filter (fun e => List.isPrefixOf p e.1)
      = db.filter (fun e => List.isPrefixOf p e.1) := by
  induction db with
  | nil => rfl
  | cons e rest ih =>
    by_cases hpre : List.isPrefixOf p e.1 = true
    · have hle : bytesLe p e.1 = true := isPrefixOf_bytesLe p e.1 hpre
      rw [@List.filter_cons_of_pos _ (fun e => bytesLe p e.1) e rest hle,
        @List.filter_cons_of_pos _ (fun e => List.isPrefixOf p e.1) e
          (rest.filter (fun e => bytesLe p e.1)) hpre,
        @List.filter_cons_of_pos _ (fun e => List.isPrefixOf p e.1) e rest hpre, ih]
    · by_cases hle : bytesLe p e.1 = true
      · rw [@List.filter_cons_of_pos _ (fun e => bytesLe p e.1) e rest hle,
          @List.filter_cons_of_neg _ (fun e => List.isPrefixOf p e.1) e
            (rest.filter (fun e => bytesLe p e.1)) hpre,
          @List.filter_cons_of_neg _ (fun e => List.isPrefixOf p e.1) e rest hpre, ih]
      · rw [@List.filter_cons_of_neg _ (fun e => bytesLe p e.1) e rest hle,
          @List.filter_cons_of_neg _ (fun e => List.isPrefixOf p e.1) e rest hpre, ih]

theorem prefix_keys_eq (db : DB) (hs : Sorted db) (p : Bytes) (st : Bool) :
    KVStore.prefix_keys db p st =
      ((db.map (fun e => e.1)).filter (fun k => List.isPrefixOf p k)).map
        (fun k => k.drop (if st then p.length else 0)) := by
  simp only [KVStore.prefix_keys]
  have hK : SqliteStore.keys db (some p) none =
      (db.filter (fun e => bytesLe p e.1)).map (fun e => e.1) := rfl
  rw [hK]
  have hsor : ((db.filter (fun e => bytesLe p e.1)).map (fun e => e.1)).Pairwise
      (fun a b => bytesLt a b = true) :=
    List.Pairwise.map _ (fun a b h => h) (List.Pairwise.filter _ hs)
  have hge : ∀ x ∈ (db.filter (fun e => bytesLe p e.1)).map (fun e => e.1),
      bytesLe p x = true := by
    intro x hx
    rcases List.mem_map.mp hx with ⟨e, he, rfl⟩
    exact (List.mem_filter.mp he).2
  rw [takeWhile_eq_filter_keys p _ hsor hge, filter_isPrefixOf_le db p]

theorem prefix_items_eq (db : DB) (hs : Sorted db) (p : Bytes) (st : Bool) :
    KVStore.prefix_items db p st =
      (db.filter (fun e => List.isPrefixOf p e.1)).map
        (fun e => (e.1.drop (if st then p.length else 0), e.2)) := by
  simp only [KVStore.prefix_items]
  have hI : SqliteStore.items db (some p) none =
      db.filter (fun e => bytesLe p e.1) := rfl
  rw [hI]
  have hsor : (db.filter (fun e => bytesLe p e.1)).Pairwise
      (fun a b => bytesLt a.1 b.1 = true) := List.Pairwise.filter _ hs
  have hge : ∀ x ∈ db.filter (fun e => bytesLe p e.1), bytesLe p x.1 = true :=
    fun x hx => (List.mem_filter.mp hx).2
  rw [takeWhile_eq_filter_items p _ hsor hge, filter_filter_isPrefixOf db p]

/-! ### Remaining claim theorems -/

/-- Claim C1: over any store contents with the index invariant, and any
pair of optional bounds, `keys(lo, hi)` yields exactly the stored keys `k`
with `lo ≤ k ≤ hi` under byte-lexical comparison (a `None` bound being
unbounded on that side), in ascending byte-lexical order, and the four
bound shapes each select the corresponding WHERE predicate. -/
theorem keys_range_correct (db : DB) (lo hi : Option Bytes) (hs : Sorted db) :
    (∀ k, k ∈ SqliteStore.keys db lo hi ↔
      (k ∈ db.map (fun e => e.1) ∧ in_bounds_spec lo hi k = true)) ∧
    (SqliteStore.keys db lo hi).Pairwise (fun a b => bytesLt a b = true) ∧
    (∀ k, (SqliteStore.range_where lo hi).holds k = in_bounds_spec lo hi k) ∧
    SqliteStore.range_where none none = SqliteStore.RangeWhere.noBound ∧
    (∀ a, SqliteStore.range_where (some a) none = SqliteStore.RangeWhere.geFrom a) ∧
    (∀ b, SqliteStore.range_where none (some b) = SqliteStore.RangeWhere.leTo b) ∧
    (∀ a b, SqliteStore.range_where (some a) (some b) = SqliteStore.RangeWhere.between a b) :=
  ⟨fun k => mem_keys db lo hi k, keys_pairwise hs lo hi, fun k => holds_eq_spec lo hi k,
   rfl, fun _ => rfl, fun _ => rfl, fun _ _ => rfl⟩

/-- Witness for C1 at a concrete store and bounds. -/
theorem keys_range_correct_witness :
    ([1] ∈ SqliteStore.keys [([1], [2]), ([2], [3])] (some [1]) (some [1]) ↔
      ([1] ∈ [([1], [2]), ([2], [3])].map (fun e => e.1) ∧
        in_bounds_spec (some [1]) (some [1]) [1] = true)) ∧
    (SqliteStore.keys [([1], [2]), ([2], [3])] (some [1]) (some [1])).Pairwise
      (fun a b => bytesLt a b = true) :=
  ⟨(keys_range_correct [([1], [2]), ([2], [3])] (some [1]) (some [1]) (by decide)).1 [1],
   (keys_range_correct [([1], [2]), ([2], [3])] (some [1]) (some [1]) (by decide)).2.1⟩

/-- Claim C2: `prefix_keys(p)` yields exactly the stored keys starting
with `p`, in ascending byte-lexical order (the canonical ordered filter of
the stored keys); with `strip_prefix=True` the same keys with the leading
`len(p)` bytes removed; and `prefix_items` likewise over pairs.  The
early-stopping scan from `key_from=p` is correct because byte-lexical
order keeps prefix-sharing keys contiguous. -/
theorem prefix_query_correct (db : DB) (p : Bytes) (hs : Sorted db) :
    KVStore.prefix_keys db p false =
      (db.map (fun e => e.1)).filter (fun k => List.isPrefixOf p k) ∧
    KVStore.prefix_keys db p true =
      ((db.map (fun e => e.1)).filter (fun k => List.isPrefixOf p k)).map
        (fun k => k.drop p.length) ∧
    KVStore.prefix_items db p false = db.filter (fun e => List.isPrefixOf p e.1) ∧
    KVStore.prefix_items db p true =
      (db.filter (fun e => List.isPrefixOf p e.1)).map
        (fun e => (e.1.drop p.length, e.2)) := by
  refine ⟨?_, ?_, ?_, ?_⟩
  · simpa using prefix_keys_eq db hs p false
  · simpa using prefix_keys_eq db hs p true
  · simpa using prefix_items_eq db hs p false
  · simpa using prefix_items_eq db hs p true

/-- Witness for C2 at a concrete store and prefix. -/
theorem prefix_query_correct_witness :
    KVStore.prefix_keys [([1], [2]), ([1, 1], [3]), ([2], [4])] [1] false =
      ([([1], [2]), ([1, 1], [3]), ([2], [4])].map (fun e => e.1)).filter
        (fun k => List.isPrefixOf [1] k) ∧
    KVStore.prefix_keys [([1], [2]), ([1, 1], [3]), ([2], [4])] [1] true =
      (([([1], [2]), ([1, 1], [3]), ([2], [4])].map (fun e => e.1)).filter
        (fun k => List.isPrefixOf [1] k)).map (fun k => k.drop (List.length [1])) :=
  ⟨(prefix_query_correct [([1], [2]), ([1, 1], [3]), ([2], [4])] [1] (by decide)).1,
   (prefix_query_correct [([1], [2]), ([1, 1], [3]), ([2], [4])] [1] (by decide)).2.1⟩

/-! ### Chunk-shape and commit-trace lemmas -/

theorem ibatch_chunk_bounds (n : Nat) :
    ∀ (l : List α), ∀ c ∈ ibatch l (n + 1), 0 < c.length ∧ c.length ≤ n + 1
  | [], c, hc => by simp [ibatch] at hc
  | x :: xs, c, hc => by
    simp only [ibatch] at hc
    rcases List.mem_cons.mp hc with rfl | hc
    · constructor
      · simp [List.length_take]
      · simp [List.length_take]
    · exact ibatch_chunk_bounds n (List.drop (n + 1) (x :: xs)) c hc
termination_by l => l.length
decreasing_by simp; omega

theorem ibatch_dropLast_length (n : Nat) :
    ∀ (l : List α), ∀ c ∈ (ibatch l (n + 1)).dropLast, c.length = n + 1
  | [], c, hc => by simp [ibatch] at hc
  | x :: xs, c, hc => by
    simp only [ibatch] at hc
    rcases hdrop : List.drop (n + 1) (x :: xs) with _ | ⟨y, ys⟩
    · rw [hdrop] at hc
      simp [ibatch] at hc
    · rw [hdrop] at hc
      have hc' : c ∈ List.take (n + 1) (x :: xs) ::
          (ibatch (y :: ys) (n + 1)).dropLast := by
        rcases hib : ibatch (y :: ys) (n + 1) with _ | ⟨c1, cs⟩
        · exact absurd hib (by simp [ibatch])
        · rw [hib] at hc
          rw [List.dropLast_cons₂] at hc
          exact hc
      rcases List.mem_cons.mp hc' with rfl | hc''
      · have hlen : n + 1 ≤ xs.length := by
          have hlen2 := congrArg List.length hdrop
          simp [List.length_drop] at hlen2
          omega
        simp [List.length_take]
        omega
      · exact ibatch_dropLast_length n (y :: ys) c hc''
termination_by l => l.length
decreasing_by
  have hlen2 := congrArg List.length hdrop
  simp [List.length_drop] at hlen2
  simp
  omega

theorem commit_trace_length :
    ∀ (bs : List (List (Bytes × Bytes))) (db : DB),
      (SqliteStore.commit_trace db bs).length = bs.length
  | [], _ => rfl
  | b :: bs, db => by
    simp [SqliteStore.commit_trace, commit_trace_length bs]

theorem commit_trace_getLastD :
    ∀ (bs : List (List (Bytes × Bytes))) (db : DB),
      (SqliteStore.commit_trace db bs).getLastD db = bs.foldl SqliteStore.exec_batch db
  | [], _ => rfl
  | b :: bs, db => by
    simp only [SqliteStore.commit_trace, List.getLastD_cons, List.foldl_cons]
    exact commit_trace_getLastD bs (SqliteStore.exec_batch db b)

/-- Claim C6: `put_many` partitions its input into consecutive chunks of
exactly 30,000 pairs (the last possibly smaller, never empty), applies
each chunk as one multi-row `executemany` upsert, and commits once after
each chunk — the committed-state trace has exactly one entry per chunk and
ends at the final state — while an empty input produces no chunk and no
commit.  Atomicity holds within a chunk, not across the call: each trace
entry is a state where only a prefix of the chunks has been applied. -/
theorem put_many_chunking (db : DB) (items : List (Bytes × Bytes)) :
    (ibatch items 30000).flatten = items ∧
    (∀ c ∈ (ibatch items 30000).dropLast, c.length = 30000) ∧
    (∀ c ∈ ibatch items 30000, 0 < c.length ∧ c.length ≤ 30000) ∧
    SqliteStore.put_many db items = (ibatch items 30000).foldl SqliteStore.exec_batch db ∧
    (SqliteStore.put_many_commits db items).length = (ibatch items 30000).length ∧
    (SqliteStore.put_many_commits db items).getLastD db = SqliteStore.put_many db items ∧
    ibatch ([] : List (Bytes × Bytes)) 30000 = [] ∧
    SqliteStore.put_many_commits db [] = [] := by
  have hnil : ibatch ([] : List (Bytes × Bytes)) 30000 = [] := by simp [ibatch]
  refine ⟨ibatch_flatten 29999 items, ibatch_dropLast_length 29999 items,
    ibatch_chunk_bounds 29999 items, rfl, commit_trace_length _ db,
    commit_trace_getLastD _ db, hnil, ?_⟩
  simp [SqliteStore.put_many_commits, hnil, SqliteStore.commit_trace]

/-- Witness for C6: a concrete two-row input forms a single chunk. -/
theorem put_many_chunking_witness :
    (ibatch ([([0], [1]), ([1], [2])] : List (Bytes × Bytes)) 30000).flatten
        = [([0], [1]), ([1], [2])] ∧
    (0 < ([([0], [1]), ([1], [2])] : List (Bytes × Bytes)).length ∧
      ([([0], [1]), ([1], [2])] : List (Bytes × Bytes)).length ≤ 30000) :=
  ⟨(put_many_chunking [] ([([0], [1]), ([1], [2])] : List (Bytes × Bytes))).1,
   (put_many_chunking [] ([([0], [1]), ([1], [2])] : List (Bytes × Bytes))).2.2.1
     ([([0], [1]), ([1], [2])] : List (Bytes × Bytes))
     (by simp [ibatch, List.take_of_length_le, List.drop_eq_nil_of_le])⟩

/-! ### Invariant preservation -/

theorem foldl_put_sorted :
    ∀ (items : List (Bytes × Bytes)) (db : DB), Sorted db →
      Sorted (items.foldl (fun d kv => SqliteStore.put d kv.1 kv.2) db)
  | [], _, hs => hs
  | kv :: rest, db, hs => by
    simp only [List.foldl_cons]
    exact foldl_put_sorted rest _ (put_sorted hs kv.1 kv.2)

theorem delete_sorted {db : DB} (hs : Sorted db) (k : Bytes) :
    Sorted (SqliteStore.delete db k) := List.Pairwise.filter _ hs

theorem foldl_delete_sorted :
    ∀ (ks : List Bytes) (db : DB), Sorted db →
      Sorted (ks.foldl (fun d k => SqliteStore.delete d k) db)
  | [], _, hs => hs
  | k :: rest, db, hs => by
    simp only [List.foldl_cons]
    exact foldl_delete_sorted rest _ (delete_sorted hs k)

theorem put_many_sorted {db : DB} (hs : Sorted db) (items : List (Bytes × Bytes)) :
    Sorted (SqliteStore.put_many db items) := by
  rw [put_many_eq_foldl]
  exact foldl_put_sorted items db hs

theorem delete_many_sorted {db : DB} (hs : Sorted db) (ks : List Bytes) :
    Sorted (SqliteStore.delete_many db ks) := by
  rw [delete_many_eq_foldl]
  exact foldl_delete_sorted ks db hs

theorem reachable_sorted {db : DB} (h : Reachable db) : Sorted db := by
  induction h with
  | empty => exact List.Pairwise.nil
  | put k v _ ih => exact put_sorted ih k v
  | put_many items _ ih => exact put_many_sorted ih items
  | delete k _ ih => exact delete_sorted ih k
  | delete_many ks _ ih => exact delete_many_sorted ih ks

theorem countP_le_one_of_sorted {db : DB} (hs : Sorted db) (k : Bytes) :
    db.countP (fun e => e.1 == k) ≤ 1 := by
  induction db with
  | nil => simp
  | cons f rest ih =>
    rcases List.pairwise_cons.mp hs with ⟨hf, hrest⟩
    by_cases hfk : (f.1 == k) = true
    · have hk : f.1 = k := by simpa using hfk
      have h0 : rest.countP (fun e => e.1 == k) = 0 :=
        countP_eq_zero_of_forall_gt (fun e he => hk ▸ hf e he)
      simp [List.countP_cons, hfk, h0]
    · have hfk' : (f.1 == k) = false := by simpa using hfk
      simp only [List.countP_cons, hfk', if_false, Nat.add_zero]
      exact ih hrest

theorem items_none_none (db : DB) : SqliteStore.items db none none = db := by
  simp [SqliteStore.items, SqliteStore.range_where, SqliteStore.RangeWhere.holds,
    List.filter_true]

/-- Claim C7: every reachable store state keeps the primary-key invariant
— rows strictly ascending by key, hence at most one row per distinct key —
the mutating operations preserve it (reads do not change state), and
`items()` therefore yields keys in strictly ascending byte-lexical order
with no duplicates. -/
theorem reachable_invariant (db : DB) (hr : Reachable db) :
    Sorted db ∧
    (∀ k, db.countP (fun e => e.1 == k) ≤ 1) ∧
    (∀ k v, Sorted (SqliteStore.put db k v)) ∧
    (∀ items, Sorted (SqliteStore.put_many db items)) ∧
    (∀ k, Sorted (SqliteStore.delete db k)) ∧
    (∀ ks, Sorted (SqliteStore.delete_many db ks)) ∧
    ((SqliteStore.items db none none).map (fun e => e.1)).Pairwise
      (fun a b => bytesLt a b = true) := by
  have hs := reachable_sorted hr
  refine ⟨hs, fun k => countP_le_one_of_sorted hs k,
    fun k v => put_sorted hs k v, fun items => put_many_sorted hs items,
    fun k => delete_sorted hs k, fun ks => delete_many_sorted hs ks, ?_⟩
  rw [items_none_none]
  exact List.Pairwise.map _ (fun a b h => h) hs

/-- Witness for C7 at a state reached by one put. -/
theorem reachable_invariant_witness :
    Sorted (SqliteStore.put [] [0] [1]) ∧
    (SqliteStore.put [] [0] [1]).countP (fun e => e.1 == [0]) ≤ 1 :=
  ⟨(reachable_invariant _ (Reachable.put [0] [1] Reachable.empty)).1,
   (reachable_invariant _ (Reachable.put [0] [1] Reachable.empty)).2.1 [0]⟩

/-- Claim C9: writing entries, closing the store, and reopening at the
same path preserves every entry — `get` and `items` afterwards return
results identical to before the close. -/
theorem persistence_round_trip (db : DB) :
    SqliteStore.open_store (SqliteStore.close db) = db ∧
    (∀ k d, SqliteStore.get (SqliteStore.open_store (SqliteStore.close db)) k d
        = SqliteStore.get db k d) ∧
    (∀ lo hi, SqliteStore.items (SqliteStore.open_store (SqliteStore.close db)) lo hi
        = SqliteStore.items db lo hi) :=
  ⟨rfl, fun _ _ => rfl, fun _ _ => rfl⟩

end Park
